import Mathlib

/-!
Verification of the filewatcher program (src/filewatcher.py).

The program is embedded shallowly:

* Text is modelled as `List Char`; a file is a `List (List Char)` of its
  lines (a line holds no line-break character, captured by `plainFile`).
* Python `str.split(maxsplit=1)`, `str.split()`, `str.strip()` and
  `str.splitlines()` are embedded as executable functions on `List Char`.
  The whitespace class is the common one (space, tab, CR, LF); exotic
  Unicode whitespace is outside the model.
* The shell pipeline `nl -ba FILE | tail -n +K` run by `_run_command`
  (which strips the captured stdout) is embedded as `runTailCmd`:
  `nl -ba` numbers every line from 1, right-justified in width 6 with a
  tab separator; `tail -n +K` keeps lines from the K-th on.
* A compiled regex object is abstracted by its `search` method, an
  arbitrary `List Char → Bool`; the semantics of `re.search` itself
  (match at any position) is modelled by `pySearch` over an abstract
  whole-string matcher.
* Side effects (syslog, SMTP, process exit) are modelled by small result
  records that record which calls were made and which exceptions escaped.
-/

/-- Whitespace test used by the Python string operations in the source
(space, tab, CR, LF). -/
def isWS (c : Char) : Bool :=
  c == ' ' || c == '\t' || c == '\n' || c == '\r'

/-- Python `str.lstrip()` on a list of characters. -/
def lstrip (s : List Char) : List Char := s.dropWhile isWS

/-- Python `str.rstrip()` on a list of characters. -/
def rstrip (s : List Char) : List Char := (lstrip s.reverse).reverse

/-- Python `str.strip()` on a list of characters. -/
def pyStrip (s : List Char) : List Char := rstrip (lstrip s)

/-- Split a string at newline characters; every piece is kept, so n
separators give n+1 pieces. -/
def splitNL : List Char → List (List Char)
  | [] => [[]]
  | c :: rest =>
    if c = '\n' then [] :: splitNL rest
    else
      match splitNL rest with
      | [] => [[c]]
      | h :: t => (c :: h) :: t

/-- Python `str.splitlines()` restricted to strings without CR (the only
inputs the pipeline produces): the empty string gives no lines, otherwise
lines are the pieces between newline characters. -/
def splitlinesNL (s : List Char) : List (List Char) :=
  if s.isEmpty then [] else splitNL s

/-- Join lines with a single newline between them, as the stdout of the
`nl | tail` pipeline concatenates its output lines. -/
def joinNL : List (List Char) → List Char
  | [] => []
  | [l] => l
  | l :: l' :: ls => l ++ '\n' :: joinNL (l' :: ls)

/-- Decimal digit character for a value below ten. -/
def digitChar : Nat → Char
  | 0 => '0' | 1 => '1' | 2 => '2' | 3 => '3' | 4 => '4'
  | 5 => '5' | 6 => '6' | 7 => '7' | 8 => '8' | _ => '9'

/-- Numeric value of a decimal digit character (0 for any other char). -/
def digitVal (c : Char) : Nat :=
  if c = '0' then 0 else if c = '1' then 1 else if c = '2' then 2
  else if c = '3' then 3 else if c = '4' then 4 else if c = '5' then 5
  else if c = '6' then 6 else if c = '7' then 7 else if c = '8' then 8
  else if c = '9' then 9 else 0

/-- Decimal digits of `n`, most significant first, computed with a fuel
argument so that the definition is structurally recursive. -/
def natDigitsAux : Nat → Nat → List Char
  | 0, _ => []
  | fuel + 1, n =>
    if n < 10 then [digitChar n]
    else natDigitsAux fuel (n / 10) ++ [digitChar (n % 10)]

/-- Decimal representation of a natural number, as printed by `nl`. -/
def natDigits (n : Nat) : List Char := natDigitsAux (n + 1) n

/-- Python `int(tok)` on a whitespace-free token consisting of decimal
digits; `none` models the `ValueError` raised on any other token. -/
def intToken? (s : List Char) : Option Nat :=
  if !s.isEmpty && s.all Char.isDigit then
    some (s.foldl (fun a c => a * 10 + digitVal c) 0)
  else none

/-- First whitespace-separated token of a line: models
`line.split()[0]`, with `none` for the `IndexError` on a blank line. -/
def firstTok (l : List Char) : Option (List Char) :=
  let s := lstrip l
  if s.isEmpty then none else some (s.takeWhile (fun c => !isWS c))

/-- `int(line.split()[0])` as used to advance the cursor:
the parsed number of a diffed line, `none` when the line has no token or
the token is not numeric. -/
def tokNo (l : List Char) : Option Nat := (firstTok l).bind intToken?

/-- Python `line.split(maxsplit=1)`: at most two pieces, leading
whitespace dropped, the separator run after the first token dropped. -/
def pySplit1 (l : List Char) : List (List Char) :=
  let s := lstrip l
  if s.isEmpty then []
  else
    let tok := s.takeWhile (fun c => !isWS c)
    let rest := lstrip (s.dropWhile (fun c => !isWS c))
    if rest.isEmpty then [tok] else [tok, rest]

/-- The destructuring `line_no, line = line.split(maxsplit=1)` in
`base_verifier_sender`: `none` models the `ValueError` that makes the
loop `continue` (the line is skipped). -/
def parseLine (l : List Char) : Option (List Char × List Char) :=
  match pySplit1 l with
  | [a, b] => some (a, b)
  | _ => none

/-- Insertion into `collections.OrderedDict`: an existing key keeps its
position and gets the new value, a new key is appended at the end. -/
def odInsert (k v : List Char) :
    List (List Char × List Char) → List (List Char × List Char)
  | [] => [(k, v)]
  | p :: rest => if p.1 = k then (k, v) :: rest else p :: odInsert k v rest

/-- One iteration of the matching loop of `base_verifier_sender`:
skip lines that do not split into number and content, test the content
with the regex `search`, record matches in the ordered dict. -/
def verifierStep (search : List Char → Bool)
    (acc : List (List Char × List Char)) (line : List Char) :
    List (List Char × List Char) :=
  match parseLine line with
  | none => acc
  | some (no, text) => if search text then odInsert no text acc else acc

/-- The `matched_lines` ordered dict built by `base_verifier_sender`
from the diffed lines, keyed by the line-number token. -/
def base_verifier (search : List Char → Bool)
    (newLines : List (List Char)) : List (List Char × List Char) :=
  newLines.foldl (verifierStep search) []

/-- The contribution of a single diffed line to `matched_lines`:
its (number, content) pair when it parses and the content matches. -/
def matchKey (search : List Char → Bool) (line : List Char) :
    Option (List Char × List Char) :=
  match parseLine line with
  | none => none
  | some (no, text) => if search text then some (no, text) else none

/-- Line-number tokens of the lines of a batch that parse into a
numbered form. -/
def parsedKeys (ls : List (List Char)) : List (List Char) :=
  ls.filterMap (fun l => (parseLine l).map Prod.fst)

/-- All suffixes of a string. -/
def tailsL : List Char → List (List Char)
  | [] => [[]]
  | c :: t => (c :: t) :: tailsL t

/-- All leading segments of a string. -/
def initsL : List Char → List (List Char)
  | [] => [[]]
  | c :: t => [] :: (initsL t).map (c :: ·)

/-- `re.search` semantics over an abstract whole-string matcher `m`:
the search succeeds when some contiguous segment of the string, at any
position, satisfies `m`. -/
def pySearch (m : List Char → Bool) (s : List Char) : Bool :=
  (tailsL s).any (fun t => (initsL t).any m)

/-- `log_syslog`: runs `logger` and reports success exactly when the
spawned command exits with status zero. -/
def log_syslog (loggerExit : Nat) : Bool := loggerExit == 0

/-- What `base_verifier_sender` did with the sinks in one call. -/
structure NotifyResult where
  syslogAttempted : Bool
  syslogOk : Bool
  mailAttempted : Bool
  mailDelivered : Bool
  raised : Bool
deriving DecidableEq

/-- The notification phase of `base_verifier_sender`: only a non-empty
match dict notifies; syslog is attempted first when configured, and its
boolean result is discarded; mail is attempted when a from-address is
configured, and a mail failure is an uncaught exception (`raised`). -/
def notifyPhase (hasMatches syslogCfg mailCfg : Bool)
    (loggerExit : Nat) (mailOk : Bool) : NotifyResult :=
  if hasMatches then
    let sa := syslogCfg
    let sok := syslogCfg && log_syslog loggerExit
    if mailCfg then
      if mailOk then ⟨sa, sok, true, true, false⟩
      else ⟨sa, sok, true, false, true⟩
    else ⟨sa, sok, false, false, false⟩
  else ⟨false, false, false, false, false⟩

/-- `base_verifier_sender`: builds `matched_lines` from the diffed lines
and runs the notification phase on the result.  `loggerExit` is the exit
status of the spawned `logger` command; `mailOk` is false when
`send_mail` raises. -/
def base_verifier_sender (search : List Char → Bool)
    (newLines : List (List Char)) (syslogCfg mailCfg : Bool)
    (loggerExit : Nat) (mailOk : Bool) : NotifyResult :=
  notifyPhase (!(base_verifier search newLines).isEmpty)
    syslogCfg mailCfg loggerExit mailOk

/-- How one call of `send_mail` can end. -/
inductive MailOutcome
  | ok
  | smtpError
  | unboundLocalError
deriving DecidableEq

/-- Resource trace of one `send_mail` call. -/
structure MailRun where
  connOpened : Bool
  sendAttempted : Bool
  closeCalled : Bool
  connOpenAtEnd : Bool
  outcome : MailOutcome
deriving DecidableEq

/-- `send_mail`: `smtp_client = smtplib.SMTP(...)` then `sendmail`
inside `try`, with `smtp_client.close()` in the `finally` block.
When the constructor itself raises, the name `smtp_client` is unbound,
so the `finally` block raises `UnboundLocalError` and no close happens
(no connection was established). -/
def send_mail (connectOk sendOk : Bool) : MailRun :=
  if connectOk then
    if sendOk then ⟨true, true, true, false, .ok⟩
    else ⟨true, true, true, false, .smtpError⟩
  else ⟨false, false, false, false, .unboundLocalError⟩

/-- The three `FileWatcherException` messages raised by the
configuration checks at the top of `base_watcher`. -/
inductive ConfigError
  | noSink
  | noToAddrs
  | noFromAddr
deriving DecidableEq

/-- Python truthiness of the optional `--from` string argument. -/
def pyTruthyStr : Option (List Char) → Bool
  | none => false
  | some s => !s.isEmpty

/-- Python truthiness of the optional `--to` address list. -/
def pyTruthyList : Option (List (List Char)) → Bool
  | none => false
  | some l => !l.isEmpty

/-- `check_input_combo(one, two, msg)`: raises when `one` is truthy but
`two` is not, otherwise returns `True`. -/
def check_input_combo (one two : Bool) (e : ConfigError) :
    Except ConfigError Bool :=
  if one && !two then .error e else .ok true

/-- The configuration checks run at the top of `base_watcher`, before
its `while` loop: no sink at all, `--from` without `--to`, `--to`
without `--from`. -/
def base_watcher_config (syslog : Bool) (fromAddr : Option (List Char))
    (toAddrs : Option (List (List Char))) : Except ConfigError Unit :=
  if !(syslog || pyTruthyStr fromAddr || pyTruthyList toAddrs) then
    .error .noSink
  else
    match check_input_combo (pyTruthyStr fromAddr) (pyTruthyList toAddrs)
        .noToAddrs with
    | .error e => .error e
    | .ok _ =>
      match check_input_combo (pyTruthyList toAddrs) (pyTruthyStr fromAddr)
          .noFromAddr with
      | .error e => .error e
      | .ok _ => .ok ()

/-- Observable outcome of one process run of the program. -/
structure ProcessOutcome where
  exitCode : Nat
  poolStarted : Bool
  workerErrors : List ConfigError
deriving DecidableEq

/-- Control flow of `main` and the `__main__` guard: an invalid pattern
makes `re.compile` raise before the pool exists, and the interpreter
exits with status 1; otherwise the pool starts one `base_watcher` worker
per file, a worker config exception is delivered to the error callback,
`result.wait()` returns, and `main`'s return value is discarded by the
`__main__` guard, so the process exits with status 0. -/
def pyMain (patternValid syslog : Bool) (fromAddr : Option (List Char))
    (toAddrs : Option (List (List Char))) (files : List (List Char)) :
    ProcessOutcome :=
  if !patternValid then ⟨1, false, []⟩
  else
    ⟨0, true,
      files.filterMap (fun _ =>
        match base_watcher_config syslog fromAddr toAddrs with
        | .error e => some e
        | .ok _ => none)⟩

/-- Pad a rendered number on the left with spaces to width 6, as
`nl -ba` does. -/
def pad6 (s : List Char) : List Char :=
  List.replicate (6 - s.length) ' ' ++ s

/-- One output line of `nl -ba`: padded line number, tab, line text. -/
def nlLine (n : Nat) (t : List Char) : List Char :=
  List.replicate (6 - (natDigits n).length) ' ' ++ natDigits n ++ '\t' :: t

/-- Number the lines of a file with `nl -ba`, starting at `k`. -/
def nlFrom (k : Nat) : List (List Char) → List (List Char)
  | [] => []
  | t :: rest => nlLine k t :: nlFrom (k + 1) rest

/-- `nl -ba FILE`: every line numbered from 1. -/
def nlFile (file : List (List Char)) : List (List Char) := nlFrom 1 file

/-- `tail -n +k`: keep the lines from the k-th on (1-based). -/
def tailPlus (k : Nat) (ls : List (List Char)) : List (List Char) :=
  ls.drop (k - 1)

/-- The whole `nl -ba FILE | tail -n +k` pipeline as observed through
`_run_command`: the captured stdout is stripped and then split into
lines. -/
def runTailCmd (file : List (List Char)) (k : Nat) : List (List Char) :=
  splitlinesNL (pyStrip (joinNL (tailPlus k (nlFile file))))

/-- The diff operation of the watch loop: the numbered lines strictly
after the cursor `n`, i.e. the pipeline with start line `n + 1`. -/
def diff (file : List (List Char)) (n : Nat) : List (List Char) :=
  runTailCmd file (n + 1)

/-- The cursor update of `base_watcher`:
`int(new_lines_[-1].split()[0])` guarded by `except IndexError`, which
sets the cursor to 1.  `none` models the uncaught `ValueError` of `int`
on a non-numeric token (impossible for pipeline output). -/
def nextLineNo (newLines : List (List Char)) : Option Nat :=
  match newLines.getLast? with
  | none => some 1
  | some l =>
    match firstTok l with
    | none => some 1
    | some tok => intToken? tok

/-- One cycle of the `while` loop of `base_watcher` after the inotify
wake-up: compute the diff from the current cursor and set the new
cursor. -/
def watchCycle (file : List (List Char)) (lineNo : Nat) :
    Option (List (List Char) × Nat) :=
  let newLines := diff file lineNo
  (nextLineNo newLines).map (fun n => (newLines, n))

/-- A file line holds no line-break character. -/
def plainLine (l : List Char) : Bool :=
  l.all (fun c => !(c == '\n') && !(c == '\r'))

/-- All lines of the file are free of line-break characters. -/
def plainFile (f : List (List Char)) : Bool := f.all plainLine

/-- `List.range'` with step 1, defined locally: the `n` consecutive
numbers starting at `s`. -/
def rangeFrom : Nat → Nat → List Nat
  | _, 0 => []
  | s, n + 1 => s :: rangeFrom (s + 1) n

/-- Modify the first element of a list of lines. -/
def modHead (f : List Char → List Char) :
    List (List Char) → List (List Char)
  | [] => []
  | a :: t => f a :: t

/-- Modify the last element of a list of lines. -/
def modLast (f : List Char → List Char) :
    List (List Char) → List (List Char)
  | [] => []
  | [a] => [f a]
  | a :: b :: t => a :: modLast f (b :: t)

/-- String literal helper for concrete inputs. -/
def toL (s : String) : List Char := s.toList

/-- Concrete whole-string matcher used in witnesses: equality with
the string ERROR. -/
def mERR (s : List Char) : Bool := s == toL "ERROR"

/-- Concrete search function used in witnesses: `re.search` with a
matcher for the literal ERROR. -/
def searchERR : List Char → Bool := pySearch mERR

/-- A concrete diffed batch whose single line matches `searchERR`. -/
def batchERR : List (List Char) := [toL "     1\tERROR boom"]

/-- A concrete two-line diffed batch, as produced by the pipeline. -/
def batchC1 : List (List Char) :=
  [toL "1\tINFO ok", toL "     2\tERROR boom"]

/-- Concrete whole-string matcher used in the C10 witness. -/
def mell (s : List Char) : Bool := s == toL "ell"

/-- A concrete three-line file. -/
def fileA : List (List Char) := [toL "alpha", toL "beta", toL "gamma"]

/-- A concrete two-line file. -/
def fileB : List (List Char) := [toL "one", toL "two"]

/-- A post-truncation file whose single line matches the pattern. -/
def truncFile : List (List Char) := [toL "ERROR"]

lemma filterMap_const_some (e : ConfigError) (files : List (List Char)) :
    files.filterMap (fun _ => some e) = files.map (fun _ => e) := by
  induction files with
  | nil => rfl
  | cons a t ih => simp [List.filterMap_cons, ih]

/-- C7 (confirmed): on every execution of `send_mail`, no exit path
leaves the transport connection open, and `close` is called exactly when
a connection was opened; in the path where establishing the connection
fails, no connection exists (and the `finally` block itself raises
`UnboundLocalError`), so nothing is leaked there either. -/
theorem c7_mail_conn_released (connectOk sendOk : Bool) :
    (send_mail connectOk sendOk).connOpenAtEnd = false
    ∧ (send_mail connectOk sendOk).closeCalled
      = (send_mail connectOk sendOk).connOpened := by
  cases connectOk <;> cases sendOk <;> simp [send_mail]

/-- C5 counterexample: with a valid pattern but no sink configured, the
worker raises `FileWatcherException`, yet the pool was started and the
process exits with status 0, not a non-zero status. -/
theorem c5_counterexample :
    (pyMain true false none none [toL "log"]).exitCode = 0
    ∧ (pyMain true false none none [toL "log"]).poolStarted = true
    ∧ (pyMain true false none none [toL "log"]).workerErrors
      = [ConfigError.noSink] :=
  ⟨rfl, rfl, rfl⟩

/-- C5 (corrected): an invalid pattern terminates the process with
status 1 before the pool starts; but the sink-configuration errors are
raised inside each already-started worker and the process then exits
with status 0. -/
theorem c5_exit_behavior (syslog : Bool) (fa : Option (List Char))
    (ta : Option (List (List Char))) (files : List (List Char))
    (e : ConfigError) (h : base_watcher_config syslog fa ta = .error e) :
    pyMain false syslog fa ta files = ⟨1, false, []⟩
    ∧ pyMain true syslog fa ta files = ⟨0, true, files.map (fun _ => e)⟩ := by
  refine ⟨rfl, ?_⟩
  simp only [pyMain, h, Bool.not_true, Bool.false_eq_true, if_false]
  simp [filterMap_const_some]

/-- Witness for C5: the amended behavior at a concrete configuration
with no sink and one watched file. -/
theorem c5_exit_behavior_witness :
    pyMain false false none none [toL "log"] = ⟨1, false, []⟩
    ∧ pyMain true false none none [toL "log"] = ⟨0, true, [ConfigError.noSink]⟩ :=
  c5_exit_behavior false none none [toL "log"] ConfigError.noSink rfl

/-- C6 counterexample: with matches present, syslog succeeding and mail
configured, a mail-transport failure escapes `base_verifier_sender` as
an uncaught exception, so the watch loop does not continue to the next
cycle, contradicting the claim that the loop continues after any sink
failure. -/
theorem c6_counterexample :
    (base_verifier_sender searchERR batchERR true true 0 false).raised = true
    ∧ (base_verifier_sender searchERR batchERR true true 0 false).mailDelivered
      = false := by
  decide

/-- C6 (corrected): a syslog failure (non-zero `logger` exit) leaves
`log_syslog` returning `False`, mail is still attempted and delivered,
and no exception escapes, so the loop continues; only a mail failure
terminates the loop. -/
theorem c6_sink_independence (search : List Char → Bool)
    (ls : List (List Char)) (le : Nat)
    (hm : (base_verifier search ls).isEmpty = false) (hle : le ≠ 0) :
    (base_verifier_sender search ls true true le true).syslogAttempted = true
    ∧ (base_verifier_sender search ls true true le true).syslogOk = false
    ∧ (base_verifier_sender search ls true true le true).mailAttempted = true
    ∧ (base_verifier_sender search ls true true le true).mailDelivered = true
    ∧ (base_verifier_sender search ls true true le true).raised = false := by
  have h0 : (le == 0) = false := by
    simpa using hle
  simp [base_verifier_sender, notifyPhase, log_syslog, hm, h0]

/-- Witness for C6: the amended behavior on a concrete matching batch
with logger exit status 7. -/
theorem c6_sink_independence_witness :
    (base_verifier searchERR batchERR).isEmpty = false
    ∧ ((base_verifier_sender searchERR batchERR true true 7 true).syslogAttempted = true
      ∧ (base_verifier_sender searchERR batchERR true true 7 true).syslogOk = false
      ∧ (base_verifier_sender searchERR batchERR true true 7 true).mailAttempted = true
      ∧ (base_verifier_sender searchERR batchERR true true 7 true).mailDelivered = true
      ∧ (base_verifier_sender searchERR batchERR true true 7 true).raised = false) :=
  ⟨by decide, c6_sink_independence searchERR batchERR 7 (by decide) (by decide)⟩

lemma lstrip_cons (c : Char) (t : List Char) :
    lstrip (c :: t) = if isWS c then lstrip t else c :: t := by
  simp [lstrip, List.dropWhile_cons]

lemma lstrip_allWS {u : List Char} (h : ∀ c ∈ u, isWS c = true) :
    lstrip u = [] := by
  induction u with
  | nil => rfl
  | cons c t ih =>
    have hc : isWS c = true := h c (by simp)
    simp only [lstrip_cons, hc, if_true]
    exact ih fun d hd => h d (by simp [hd])

lemma lstrip_append_ws {u v : List Char} (h : ∀ c ∈ u, isWS c = true) :
    lstrip (u ++ v) = lstrip v := by
  induction u with
  | nil => rfl
  | cons c t ih =>
    have hc : isWS c = true := h c (by simp)
    simp only [List.cons_append, lstrip_cons, hc, if_true]
    exact ih fun d hd => h d (by simp [hd])

lemma lstrip_cons_nonws {c : Char} {t : List Char} (h : isWS c = false) :
    lstrip (c :: t) = c :: t := by
  simp [lstrip_cons, h]

lemma lstrip_append_ex {u v : List Char} (h : ∃ c ∈ u, isWS c = false) :
    lstrip (u ++ v) = lstrip u ++ v := by
  induction u with
  | nil =>
    rcases h with ⟨c, hc, _⟩
    cases hc
  | cons c t ih =>
    cases hc : isWS c with
    | true =>
      have h' : ∃ d ∈ t, isWS d = false := by
        rcases h with ⟨d, hd, hdf⟩
        rcases List.mem_cons.mp hd with rfl | hdt
        · rw [hc] at hdf; cases hdf
        · exact ⟨d, hdt, hdf⟩
      simp only [List.cons_append, lstrip_cons, hc, if_true]
      exact ih h'
    | false =>
      simp [List.cons_append, lstrip_cons, hc]

lemma exists_nonws_lstrip {u : List Char} (h : ∃ c ∈ u, isWS c = false) :
    ∃ d t, lstrip u = d :: t ∧ isWS d = false := by
  induction u with
  | nil =>
    rcases h with ⟨c, hc, _⟩
    cases hc
  | cons c t ih =>
    cases hc : isWS c with
    | true =>
      have h' : ∃ d ∈ t, isWS d = false := by
        rcases h with ⟨d, hd, hdf⟩
        rcases List.mem_cons.mp hd with rfl | hdt
        · rw [hc] at hdf; cases hdf
        · exact ⟨d, hdt, hdf⟩
      simpa [lstrip_cons, hc] using ih h'
    | false =>
      exact ⟨c, t, by simp [lstrip_cons, hc], hc⟩

lemma lstrip_ne_nil {u : List Char} (h : ∃ c ∈ u, isWS c = false) :
    lstrip u ≠ [] := by
  obtain ⟨d, t, he, _⟩ := exists_nonws_lstrip h
  simp [he]

lemma mem_of_mem_lstrip {x : Char} {u : List Char} (h : x ∈ lstrip u) :
    x ∈ u := by
  induction u with
  | nil => cases h
  | cons c t ih =>
    rw [lstrip_cons] at h
    by_cases hc : isWS c = true
    · rw [hc] at h
      simp only [if_true] at h
      exact List.mem_cons_of_mem _ (ih h)
    · have hc' : isWS c = false := by revert hc; cases isWS c <;> simp
      rw [hc'] at h
      simpa using h

lemma rstrip_append_ws {u v : List Char} (h : ∀ c ∈ v, isWS c = true) :
    rstrip (u ++ v) = rstrip u := by
  have h' : ∀ c ∈ v.reverse, isWS c = true :=
    fun c hc => h c (List.mem_reverse.mp hc)
  simp [rstrip, List.reverse_append, lstrip_append_ws h']

lemma rstrip_append_ex {u v : List Char} (h : ∃ c ∈ v, isWS c = false) :
    rstrip (u ++ v) = u ++ rstrip v := by
  have h' : ∃ c ∈ v.reverse, isWS c = false := by
    rcases h with ⟨c, hc, hcf⟩
    exact ⟨c, List.mem_reverse.mpr hc, hcf⟩
  simp [rstrip, List.reverse_append, lstrip_append_ex h']

lemma rstrip_ne_nil {u : List Char} (h : ∃ c ∈ u, isWS c = false) :
    rstrip u ≠ [] := by
  have h' : ∃ c ∈ u.reverse, isWS c = false := by
    rcases h with ⟨c, hc, hcf⟩
    exact ⟨c, List.mem_reverse.mpr hc, hcf⟩
  simp only [rstrip]
  intro he
  exact lstrip_ne_nil h' (by simpa using he)

lemma mem_of_mem_rstrip {x : Char} {u : List Char} (h : x ∈ rstrip u) :
    x ∈ u := by
  simp only [rstrip, List.mem_reverse] at h
  exact List.mem_reverse.mp (mem_of_mem_lstrip h)

lemma mem_takeWhile_ws {p : Char → Bool} {u : List Char} {x : Char}
    (h : x ∈ u.takeWhile p) : p x = true := by
  induction u with
  | nil => cases h
  | cons c t ih =>
    rw [List.takeWhile_cons] at h
    by_cases hc : p c = true
    · rw [hc] at h
      simp only [if_true] at h
      rcases List.mem_cons.mp h with rfl | h'
      · exact hc
      · exact ih h'
    · have hc' : p c = false := by revert hc; cases p c <;> simp
      rw [hc'] at h
      simp at h

lemma rstrip_split (l : List Char) :
    ∃ w, (∀ c ∈ w, isWS c = true) ∧ l = rstrip l ++ w := by
  refine ⟨(l.reverse.takeWhile isWS).reverse, ?_, ?_⟩
  · intro c hc
    exact mem_takeWhile_ws (List.mem_reverse.mp hc)
  · conv_lhs => rw [← List.reverse_reverse l,
      ← List.takeWhile_append_dropWhile (p := isWS) (l := l.reverse)]
    rw [List.reverse_append]
    rfl

lemma rstrip_cons_head {c : Char} {t : List Char}
    (h : rstrip (c :: t) ≠ []) : ∃ t', rstrip (c :: t) = c :: t' := by
  obtain ⟨w, _, he⟩ := rstrip_split (c :: t)
  cases hr : rstrip (c :: t) with
  | nil => exact absurd hr h
  | cons d t' =>
    rw [hr] at he
    simp only [List.cons_append] at he
    injection he with h1 _
    subst h1
    exact ⟨t', rfl⟩

lemma takeWhile_append_all {p : Char → Bool} {u v : List Char}
    (h : ∀ c ∈ u, p c = true) :
    (u ++ v).takeWhile p = u ++ v.takeWhile p := by
  induction u with
  | nil => rfl
  | cons c t ih =>
    have hc : p c = true := h c (by simp)
    simp only [List.cons_append, List.takeWhile_cons, hc, if_true]
    rw [ih fun d hd => h d (by simp [hd])]

lemma takeWhile_cons_neg {p : Char → Bool} {c : Char} {t : List Char}
    (h : p c = false) : (c :: t).takeWhile p = [] := by
  simp [List.takeWhile_cons, h]

lemma dropWhile_append_all {p : Char → Bool} {u v : List Char}
    (h : ∀ c ∈ u, p c = true) :
    (u ++ v).dropWhile p = v.dropWhile p := by
  induction u with
  | nil => rfl
  | cons c t ih =>
    have hc : p c = true := h c (by simp)
    simp only [List.cons_append, List.dropWhile_cons, hc, if_true]
    exact ih fun d hd => h d (by simp [hd])

lemma dropWhile_cons_neg {p : Char → Bool} {c : Char} {t : List Char}
    (h : p c = false) : (c :: t).dropWhile p = c :: t := by
  simp [List.dropWhile_cons, h]

lemma digitVal_digitChar : ∀ d, d < 10 → digitVal (digitChar d) = d := by
  decide

lemma isDigit_digitChar : ∀ d, d < 10 → (digitChar d).isDigit = true := by
  decide

lemma digit_not_ws {c : Char} (h : c.isDigit = true) : isWS c = false := by
  cases hw : isWS c with
  | false => rfl
  | true =>
    have hw' : ((c = ' ' ∨ c = '\t') ∨ c = '\n') ∨ c = '\r' := by
      simpa [isWS] using hw
    rcases hw' with ((rfl | rfl) | rfl) | rfl <;> exact absurd h (by decide)

lemma digit_not_break {c : Char} (h : c.isDigit = true) :
    c ≠ '\n' ∧ c ≠ '\r' := by
  constructor <;> rintro rfl <;> exact absurd h (by decide)

lemma natDigitsAux_spec : ∀ fuel n, n < fuel →
    natDigitsAux fuel n ≠ []
    ∧ (∀ c ∈ natDigitsAux fuel n, c.isDigit = true)
    ∧ List.foldl (fun a c => a * 10 + digitVal c) 0 (natDigitsAux fuel n) = n := by
  intro fuel
  induction fuel with
  | zero => intro n h; omega
  | succ f ih =>
    intro n h
    by_cases h10 : n < 10
    · refine ⟨by simp [natDigitsAux, h10], ?_, ?_⟩
      · intro c hc
        simp only [natDigitsAux, h10, if_true, List.mem_singleton] at hc
        subst hc
        exact isDigit_digitChar n h10
      · simp [natDigitsAux, h10, digitVal_digitChar n h10]
    · have hlt : n / 10 < n := Nat.div_lt_self (by omega) (by omega)
      have hd : n / 10 < f := by omega
      rcases ih (n / 10) hd with ⟨hne, hdig, hval⟩
      refine ⟨?_, ?_, ?_⟩
      · simp [natDigitsAux, h10]
      · intro c hc
        simp only [natDigitsAux, h10, if_false, List.mem_append,
          List.mem_singleton] at hc
        rcases hc with hc | hc
        · exact hdig c hc
        · subst hc
          exact isDigit_digitChar _ (by omega)
      · rw [natDigitsAux, if_neg h10, List.foldl_append, hval]
        simp only [List.foldl_cons, List.foldl_nil,
          digitVal_digitChar _ (show n % 10 < 10 by omega)]
        omega

lemma natDigits_ne_nil (n : Nat) : natDigits n ≠ [] :=
  (natDigitsAux_spec (n + 1) n (by omega)).1

lemma natDigits_digits (n : Nat) : ∀ c ∈ natDigits n, c.isDigit = true :=
  (natDigitsAux_spec (n + 1) n (by omega)).2.1

lemma natDigits_nonws (n : Nat) : ∀ c ∈ natDigits n, isWS c = false :=
  fun c hc => digit_not_ws (natDigits_digits n c hc)

lemma intToken?_natDigits (n : Nat) : intToken? (natDigits n) = some n := by
  have hne : (natDigits n).isEmpty = false := by
    cases hd : natDigits n with
    | nil => exact absurd hd (natDigits_ne_nil n)
    | cons c t => rfl
  have hall : (natDigits n).all Char.isDigit = true :=
    List.all_eq_true.mpr fun c hc => natDigits_digits n c hc
  unfold intToken?
  rw [hne, hall]
  simpa [natDigits] using (natDigitsAux_spec (n + 1) n (by omega)).2.2

lemma firstTok_tok {p tok r : List Char}
    (hp : ∀ c ∈ p, isWS c = true) (htne : tok ≠ [])
    (htw : ∀ c ∈ tok, isWS c = false)
    (hr : r = [] ∨ ∃ c r', r = c :: r' ∧ isWS c = true) :
    firstTok (p ++ tok ++ r) = some tok := by
  obtain ⟨d, t, htok⟩ : ∃ d t, tok = d :: t := by
    cases tok with
    | nil => exact absurd rfl htne
    | cons d t => exact ⟨d, t, rfl⟩
  have hl : lstrip (p ++ (tok ++ r)) = tok ++ r := by
    rw [lstrip_append_ws hp, htok, List.cons_append,
      lstrip_cons_nonws (htw d (by rw [htok]; simp)), ← List.cons_append,
      ← htok]
  have htake : (tok ++ r).takeWhile (fun c => !isWS c) = tok := by
    rw [takeWhile_append_all fun c hc => by simp [htw c hc]]
    rcases hr with rfl | ⟨c, r', rfl, hc⟩
    · simp
    · rw [takeWhile_cons_neg (by simp [hc])]
      simp
  have hemp : (tok ++ r).isEmpty = false := by
    rw [htok]
    rfl
  have hne2 : tok ++ r ≠ [] := by
    rw [htok]
    simp
  simp [firstTok, hl, htake, hemp, hne2]

lemma tokNo_numtok {p r : List Char} {k : Nat}
    (hp : ∀ c ∈ p, isWS c = true)
    (hr : r = [] ∨ ∃ c r', r = c :: r' ∧ isWS c = true) :
    tokNo (p ++ natDigits k ++ r) = some k := by
  rw [tokNo, firstTok_tok hp (natDigits_ne_nil k) (natDigits_nonws k) hr]
  simp [intToken?_natDigits]

lemma pySplit1_form {p tok r rest : List Char}
    (hp : ∀ c ∈ p, isWS c = true) (htne : tok ≠ [])
    (htw : ∀ c ∈ tok, isWS c = false)
    (hrws : ∀ c ∈ r, isWS c = true) (hrne : r ≠ []) :
    pySplit1 (p ++ tok ++ r ++ rest)
      = if (lstrip rest).isEmpty then [tok] else [tok, lstrip rest] := by
  obtain ⟨d, t, htok⟩ : ∃ d t, tok = d :: t := by
    cases tok with
    | nil => exact absurd rfl htne
    | cons d t => exact ⟨d, t, rfl⟩
  obtain ⟨c, r', hrc⟩ : ∃ c r', r = c :: r' := by
    cases r with
    | nil => exact absurd rfl hrne
    | cons c r' => exact ⟨c, r', rfl⟩
  have hcws : isWS c = true := hrws c (by rw [hrc]; simp)
  have hl : lstrip (p ++ (tok ++ (r ++ rest))) = tok ++ (r ++ rest) := by
    rw [lstrip_append_ws hp, htok,
      List.cons_append, lstrip_cons_nonws (htw d (by rw [htok]; simp)),
      ← List.cons_append, ← htok]
  have htake : (tok ++ (r ++ rest)).takeWhile (fun c => !isWS c) = tok := by
    rw [takeWhile_append_all fun c hc => by simp [htw c hc], hrc,
      List.cons_append, takeWhile_cons_neg (by simp [hcws])]
    simp
  have hdrop : (tok ++ (r ++ rest)).dropWhile (fun c => !isWS c)
      = r ++ rest := by
    rw [dropWhile_append_all fun c hc => by simp [htw c hc], hrc,
      List.cons_append, dropWhile_cons_neg (by simp [hcws]),
      ← List.cons_append, ← hrc]
  have hrest : lstrip (r ++ rest) = lstrip rest := lstrip_append_ws hrws
  have hemp : (tok ++ (r ++ rest)).isEmpty = false := by
    rw [htok]
    rfl
  have hne2 : tok ++ (r ++ rest) ≠ [] := by
    rw [htok]
    simp
  simp [pySplit1, List.append_assoc, hl, htake, hdrop, hrest, hemp, hne2]

lemma parseLine_nlLine_blank (n : Nat) : parseLine (nlLine n []) = none := by
  have hp : ∀ c ∈ List.replicate (6 - (natDigits n).length) ' ',
      isWS c = true := by
    intro c hc
    rw [List.eq_of_mem_replicate hc]
    rfl
  have hr : ∀ c ∈ ['\t'], isWS c = true := by
    intro c hc
    simp only [List.mem_singleton] at hc
    subst hc
    rfl
  have h := @pySplit1_form (List.replicate (6 - (natDigits n).length) ' ')
    (natDigits n) ['\t'] [] hp (natDigits_ne_nil n)
    (natDigits_nonws n) hr (by simp)
  have he : nlLine n []
      = List.replicate (6 - (natDigits n).length) ' '
        ++ natDigits n ++ ['\t'] ++ [] := by
    simp [nlLine]
  unfold parseLine
  rw [he, h]
  rfl

lemma odInsert_fresh {k v : List Char} {acc : List (List Char × List Char)}
    (h : ∀ q ∈ acc, q.1 ≠ k) : odInsert k v acc = acc ++ [(k, v)] := by
  induction acc with
  | nil => rfl
  | cons q rest ih =>
    have hq : q.1 ≠ k := h q (by simp)
    simp only [odInsert, if_neg hq, List.cons_append, List.cons.injEq,
      true_and]
    exact ih fun x hx => h x (by simp [hx])

lemma parsedKeys_nil : parsedKeys [] = [] := rfl

lemma parsedKeys_cons_none {l : List Char} {ls : List (List Char)}
    (h : parseLine l = none) : parsedKeys (l :: ls) = parsedKeys ls := by
  simp [parsedKeys, List.filterMap_cons, h]

lemma parsedKeys_cons_some {l : List Char} {ls : List (List Char)}
    {q : List Char × List Char} (h : parseLine l = some q) :
    parsedKeys (l :: ls) = q.1 :: parsedKeys ls := by
  simp [parsedKeys, List.filterMap_cons, h]

lemma verifier_go (search : List Char → Bool) :
    ∀ (ls : List (List Char)) (acc : List (List Char × List Char)),
    (parsedKeys ls).Nodup →
    (∀ q ∈ acc, ∀ k ∈ parsedKeys ls, q.1 ≠ k) →
    ls.foldl (verifierStep search) acc = acc ++ ls.filterMap (matchKey search)
  | [], acc, _, _ => by simp
  | l :: t, acc, hnd, hdisj => by
    rw [List.foldl_cons, List.filterMap_cons]
    cases hp : parseLine l with
    | none =>
      have hstep : verifierStep search acc l = acc := by
        simp [verifierStep, hp]
      have hmk : matchKey search l = none := by
        simp [matchKey, hp]
      rw [hstep, hmk]
      exact verifier_go search t acc (by rwa [parsedKeys_cons_none hp] at hnd)
        (fun q hq k hk => hdisj q hq k (by rw [parsedKeys_cons_none hp]; exact hk))
    | some q =>
      obtain ⟨n, txt⟩ := q
      have hpk : parsedKeys (l :: t) = n :: parsedKeys t :=
        parsedKeys_cons_some hp
      rw [hpk] at hnd
      have hn_nin : n ∉ parsedKeys t := (List.nodup_cons.mp hnd).1
      have hnd' : (parsedKeys t).Nodup := (List.nodup_cons.mp hnd).2
      have hdisj1 : ∀ q ∈ acc, q.1 ≠ n := fun q hq =>
        hdisj q hq n (by rw [hpk]; exact List.mem_cons_self _ _)
      have hdisj2 : ∀ q ∈ acc, ∀ k ∈ parsedKeys t, q.1 ≠ k := fun q hq k hk =>
        hdisj q hq k (by rw [hpk]; exact List.mem_cons_of_mem _ hk)
      cases hs : search txt with
      | false =>
        have hstep : verifierStep search acc l = acc := by
          simp [verifierStep, hp, hs]
        have hmk : matchKey search l = none := by
          simp [matchKey, hp, hs]
        rw [hstep, hmk]
        exact verifier_go search t acc hnd' hdisj2
      | true =>
        have hstep : verifierStep search acc l = acc ++ [(n, txt)] := by
          simp only [verifierStep, hp, hs, if_true]
          exact odInsert_fresh hdisj1
        have hmk : matchKey search l = some (n, txt) := by
          simp [matchKey, hp, hs]
        rw [hstep, hmk]
        have hdisj3 : ∀ q ∈ acc ++ [(n, txt)], ∀ k ∈ parsedKeys t, q.1 ≠ k := by
          intro q hq k hk
          rcases List.mem_append.mp hq with hq | hq
          · exact hdisj2 q hq k hk
          · simp only [List.mem_singleton] at hq
            subst hq
            intro he
            have hnk : n = k := he
            rw [← hnk] at hk
            exact hn_nin hk
        rw [verifier_go search t (acc ++ [(n, txt)]) hnd' hdisj3,
          List.append_assoc]
        rfl

lemma matchKey_eq_some {search : List Char → Bool} {l no text : List Char} :
    matchKey search l = some (no, text)
    ↔ parseLine l = some (no, text) ∧ search text = true := by
  cases hp : parseLine l with
  | none => simp [matchKey, hp]
  | some q =>
    obtain ⟨a, b⟩ := q
    cases hs : search b with
    | false =>
      simp only [matchKey, hp, hs, Bool.false_eq_true, if_false]
      constructor
      · intro h
        cases h
      · rintro ⟨he, hst⟩
        rw [Option.some.injEq, Prod.mk.injEq] at he
        obtain ⟨rfl, rfl⟩ := he
        rw [hs] at hst
        cases hst
    | true =>
      simp only [matchKey, hp, hs, if_true]
      constructor
      · intro h
        rw [Option.some.injEq, Prod.mk.injEq] at h
        obtain ⟨rfl, rfl⟩ := h
        exact ⟨rfl, hs⟩
      · rintro ⟨he, _⟩
        rw [Option.some.injEq, Prod.mk.injEq] at he
        obtain ⟨rfl, rfl⟩ := he
        rfl

lemma mem_tailsL {s t : List Char} : t ∈ tailsL s ↔ ∃ u, s = u ++ t := by
  induction s with
  | nil =>
    simp only [tailsL, List.mem_singleton]
    constructor
    · rintro rfl
      exact ⟨[], rfl⟩
    · rintro ⟨u, hu⟩
      exact (List.append_eq_nil.mp hu.symm).2
  | cons c s' ih =>
    simp only [tailsL, List.mem_cons]
    constructor
    · rintro (rfl | ht)
      · exact ⟨[], rfl⟩
      · obtain ⟨u, rfl⟩ := ih.mp ht
        exact ⟨c :: u, rfl⟩
    · rintro ⟨u, hu⟩
      cases u with
      | nil => exact Or.inl (by simpa using hu.symm)
      | cons d u' =>
        right
        apply ih.mpr
        refine ⟨u', ?_⟩
        have h2 : c :: s' = d :: (u' ++ t) := by simpa using hu
        injection h2 with _ h3

lemma mem_initsL {s t : List Char} : t ∈ initsL s ↔ ∃ v, s = t ++ v := by
  induction s generalizing t with
  | nil =>
    simp only [initsL, List.mem_singleton]
    constructor
    · rintro rfl
      exact ⟨[], rfl⟩
    · rintro ⟨v, hv⟩
      exact (List.append_eq_nil.mp hv.symm).1
  | cons c s' ih =>
    simp only [initsL, List.mem_cons, List.mem_map]
    constructor
    · rintro (rfl | ⟨i, hi, rfl⟩)
      · exact ⟨c :: s', rfl⟩
      · obtain ⟨v, rfl⟩ := ih.mp hi
        exact ⟨v, rfl⟩
    · rintro ⟨v, hv⟩
      cases t with
      | nil => exact Or.inl rfl
      | cons d t' =>
        right
        have h2 : c :: s' = d :: (t' ++ v) := by simpa using hv
        injection h2 with h1 h3
        subst h1
        exact ⟨t', ih.mpr ⟨v, h3⟩, rfl⟩

lemma pySearch_iff {m : List Char → Bool} {s : List Char} :
    pySearch m s = true
    ↔ ∃ pre mid post, s = pre ++ mid ++ post ∧ m mid = true := by
  unfold pySearch
  rw [List.any_eq_true]
  constructor
  · rintro ⟨t, ht, hin⟩
    rw [List.any_eq_true] at hin
    obtain ⟨i, hi, hm⟩ := hin
    obtain ⟨u, rfl⟩ := mem_tailsL.mp ht
    obtain ⟨v, rfl⟩ := mem_initsL.mp hi
    exact ⟨u, i, v, by rw [List.append_assoc], hm⟩
  · rintro ⟨pre, mid, post, rfl, hm⟩
    refine ⟨mid ++ post, mem_tailsL.mpr ⟨pre, by rw [List.append_assoc]⟩, ?_⟩
    rw [List.any_eq_true]
    exact ⟨mid, mem_initsL.mpr ⟨post, rfl⟩, hm⟩

/-- C1 (confirmed): for a batch of diffed lines whose parsed line-number
tokens are pairwise distinct (true of every pipeline diff), a
(number, content) pair is in `matched_lines` exactly when some line of
the batch parses to it and its content portion matches the pattern: no
false positives or negatives relative to the search function itself. -/
theorem c1_match_iff (search : List Char → Bool) (ls : List (List Char))
    (h : (parsedKeys ls).Nodup) (no text : List Char) :
    (no, text) ∈ base_verifier search ls
    ↔ ∃ l ∈ ls, parseLine l = some (no, text) ∧ search text = true := by
  have hb : base_verifier search ls = ls.filterMap (matchKey search) := by
    have hg := verifier_go search ls [] h (by simp)
    simpa [base_verifier] using hg
  rw [hb, List.mem_filterMap]
  constructor
  · rintro ⟨l, hl, hmk⟩
    exact ⟨l, hl, (matchKey_eq_some.mp hmk).1, (matchKey_eq_some.mp hmk).2⟩
  · rintro ⟨l, hl, hp, hs⟩
    exact ⟨l, hl, matchKey_eq_some.mpr ⟨hp, hs⟩⟩

/-- Witness for C1: the iff at a concrete two-line batch whose second
line matches the ERROR pattern. -/
theorem c1_match_iff_witness :
    (parsedKeys batchC1).Nodup
    ∧ ((toL "2", toL "ERROR boom") ∈ base_verifier searchERR batchC1
        ↔ ∃ l ∈ batchC1, parseLine l = some (toL "2", toL "ERROR boom")
            ∧ searchERR (toL "ERROR boom") = true) :=
  ⟨by decide,
    c1_match_iff searchERR batchC1 (by decide) (toL "2") (toL "ERROR boom")⟩

/-- C9 (confirmed): a diffed line consisting of a line-number token with
nothing after it (the `nl` rendering of a blank appended line) fails the
two-value unpacking and is skipped: it never contributes to
`matched_lines`, and a batch of only such lines produces no
notification, whatever the pattern, even one matching the empty
string. -/
theorem c9_blank_line_skipped (search : List Char → Bool)
    (xs ys : List (List Char)) (n : Nat) (syslogCfg mailCfg : Bool)
    (loggerExit : Nat) (mailOk : Bool) :
    base_verifier search (xs ++ nlLine n [] :: ys)
      = base_verifier search (xs ++ ys)
    ∧ base_verifier_sender search [nlLine n []] syslogCfg mailCfg
        loggerExit mailOk
      = ⟨false, false, false, false, false⟩ := by
  have hstep : ∀ acc, verifierStep search acc (nlLine n []) = acc := by
    intro acc
    simp [verifierStep, parseLine_nlLine_blank n]
  constructor
  · unfold base_verifier
    rw [List.foldl_append, List.foldl_cons, hstep, ← List.foldl_append]
  · have h1 : base_verifier search [nlLine n []] = [] := by
      unfold base_verifier
      rw [List.foldl_cons, hstep, List.foldl_nil]
    simp [base_verifier_sender, h1, notifyPhase]

/-- C10 (confirmed): the text tested against the pattern is the diffed
line minus its leading whitespace, its line-number token and the whole
whitespace run after the token (so leading whitespace of the content is
removed too), and with `re.search` semantics the line matches exactly
when the pattern matches some segment of that normalized content at any
position, not only at the start. -/
theorem c10_normalized_search (m : List Char → Bool)
    (p num r content : List Char)
    (hp : ∀ c ∈ p, isWS c = true) (hne : num ≠ [])
    (hnw : ∀ c ∈ num, isWS c = false)
    (hr : ∀ c ∈ r, isWS c = true) (hrne : r ≠ []) :
    parseLine (p ++ num ++ r ++ content)
      = (if (lstrip content).isEmpty then none
         else some (num, lstrip content))
    ∧ (matchKey (pySearch m) (p ++ num ++ r ++ content)
        = some (num, lstrip content)
      ↔ (lstrip content ≠ []
         ∧ ∃ pre mid post, lstrip content = pre ++ mid ++ post
             ∧ m mid = true)) := by
  have hps := @pySplit1_form p num r content hp hne hnw hr hrne
  simp only [List.append_assoc] at hps
  have hpl : parseLine (p ++ num ++ r ++ content)
      = (if (lstrip content).isEmpty then none
         else some (num, lstrip content)) := by
    cases he : (lstrip content).isEmpty with
    | true => simp [parseLine, hps, he]
    | false => simp [parseLine, hps, he]
  have hpl2 := hpl
  simp only [List.append_assoc] at hpl2
  refine ⟨hpl, ?_⟩
  cases he : (lstrip content).isEmpty with
  | true =>
    have hnil : lstrip content = [] := by
      cases hc : lstrip content with
      | nil => rfl
      | cons d t =>
        rw [hc] at he
        cases he
    have hmk : matchKey (pySearch m) (p ++ num ++ r ++ content) = none := by
      simp [matchKey, hpl2, he]
    rw [hmk]
    constructor
    · intro h
      cases h
    · rintro ⟨hlc, _⟩
      exact absurd hnil hlc
  | false =>
    have hlc : lstrip content ≠ [] := by
      intro hc
      rw [hc] at he
      cases he
    have hmk : matchKey (pySearch m) (p ++ num ++ r ++ content)
        = (if pySearch m (lstrip content) then some (num, lstrip content)
           else none) := by
      simp [matchKey, hpl2, he]
    rw [hmk]
    cases hsearch : pySearch m (lstrip content) with
    | true =>
      simp only [if_true]
      constructor
      · intro _
        exact ⟨hlc, pySearch_iff.mp hsearch⟩
      · intro _
        trivial
    | false =>
      simp only [Bool.false_eq_true, if_false]
      constructor
      · intro h
        cases h
      · rintro ⟨_, hex⟩
        rw [pySearch_iff.mpr hex] at hsearch
        cases hsearch

/-- Witness for C10 at a concrete line: two spaces, token 12, a tab,
then content with leading and trailing spaces, matched for the segment
ell of hello. -/
theorem c10_normalized_search_witness :
    (toL "12" ≠ [])
    ∧ (parseLine (toL "  " ++ toL "12" ++ toL "\t" ++ toL " hello ")
        = (if (lstrip (toL " hello ")).isEmpty then none
           else some (toL "12", lstrip (toL " hello ")))
      ∧ (matchKey (pySearch mell)
            (toL "  " ++ toL "12" ++ toL "\t" ++ toL " hello ")
          = some (toL "12", lstrip (toL " hello "))
        ↔ (lstrip (toL " hello ") ≠ []
           ∧ ∃ pre mid post, lstrip (toL " hello ") = pre ++ mid ++ post
               ∧ mell mid = true))) :=
  ⟨by decide,
    c10_normalized_search mell (toL "  ") (toL "12") (toL "\t")
      (toL " hello ") (by decide) (by decide) (by decide) (by decide)
      (by decide)⟩


lemma splitNL_no_nl {a : List Char} (h : '\n' ∉ a) : splitNL a = [a] := by
  induction a with
  | nil => rfl
  | cons c t ih =>
    have hc : ¬ c = '\n' := fun he => h (by rw [he]; simp)
    have ht : '\n' ∉ t := fun hm => h (by simp [hm])
    rw [splitNL, if_neg hc, ih ht]

lemma splitNL_append {a b : List Char} (h : '\n' ∉ a) :
    splitNL (a ++ '\n' :: b) = a :: splitNL b := by
  induction a with
  | nil =>
    simp only [List.nil_append]
    rw [splitNL, if_pos rfl]
  | cons c t ih =>
    have hc : ¬ c = '\n' := fun he => h (by rw [he]; simp)
    have ht : '\n' ∉ t := fun hm => h (by simp [hm])
    rw [List.cons_append, splitNL, if_neg hc, ih ht]

lemma joinNL_cons {a : List Char} {t : List (List Char)} (h : t ≠ []) :
    joinNL (a :: t) = a ++ '\n' :: joinNL t := by
  cases t with
  | nil => exact absurd rfl h
  | cons b t' => rfl

lemma splitNL_joinNL {ls : List (List Char)} (hne : ls ≠ [])
    (h : ∀ l ∈ ls, '\n' ∉ l) : splitNL (joinNL ls) = ls := by
  induction ls with
  | nil => exact absurd rfl hne
  | cons a t ih =>
    cases t with
    | nil => exact splitNL_no_nl (h a (by simp))
    | cons b t' =>
      rw [joinNL_cons (by simp), splitNL_append (h a (by simp)),
        ih (by simp) (fun l hl => h l (by simp [hl]))]

lemma joinNL_has_nonws {ls : List (List Char)} (hne : ls ≠ [])
    (h : ∀ l ∈ ls, ∃ c ∈ l, isWS c = false) :
    ∃ c ∈ joinNL ls, isWS c = false := by
  cases ls with
  | nil => exact absurd rfl hne
  | cons a t =>
    obtain ⟨c, hc, hcw⟩ := h a (by simp)
    refine ⟨c, ?_, hcw⟩
    cases t with
    | nil => simpa using hc
    | cons b t' =>
      rw [joinNL_cons (by simp)]
      exact List.mem_append.mpr (Or.inl hc)

lemma modLast_ne_nil {f : List Char → List Char} {l : List (List Char)}
    (h : l ≠ []) : modLast f l ≠ [] := by
  cases l with
  | nil => exact absurd rfl h
  | cons a t =>
    cases t with
    | nil => simp [modLast]
    | cons b t' => simp [modLast]

lemma rstrip_joinNL {ls : List (List Char)} (hne : ls ≠ [])
    (h : ∀ l ∈ ls, ∃ c ∈ l, isWS c = false) :
    rstrip (joinNL ls) = joinNL (modLast rstrip ls)
    ∧ rstrip (joinNL ls) ≠ [] := by
  induction ls with
  | nil => exact absurd rfl hne
  | cons a t ih =>
    cases t with
    | nil => exact ⟨rfl, rstrip_ne_nil (h a (by simp))⟩
    | cons b t' =>
      obtain ⟨ih1, ih2⟩ := ih (by simp) (fun l hl => h l (by simp [hl]))
      have hJ : ∃ c ∈ joinNL (b :: t'), isWS c = false :=
        joinNL_has_nonws (by simp) (fun l hl => h l (by simp [hl]))
      have hJ' : ∃ c ∈ ('\n' :: joinNL (b :: t')), isWS c = false := by
        obtain ⟨c, hc, hcw⟩ := hJ
        exact ⟨c, by simp [hc], hcw⟩
      have hr1 : rstrip (joinNL (a :: b :: t'))
          = a ++ rstrip ('\n' :: joinNL (b :: t')) := by
        rw [joinNL_cons (by simp)]
        exact rstrip_append_ex hJ'
      have hr2 : rstrip ('\n' :: joinNL (b :: t'))
          = '\n' :: rstrip (joinNL (b :: t')) := by
        have hx := rstrip_append_ex (u := ['\n']) (v := joinNL (b :: t')) hJ
        simpa using hx
      have hml_ne : modLast rstrip (b :: t') ≠ [] := modLast_ne_nil (by simp)
      have hml_cons : modLast rstrip (a :: b :: t')
          = a :: modLast rstrip (b :: t') := rfl
      constructor
      · rw [hr1, hr2, ih1, hml_cons, joinNL_cons hml_ne]
      · rw [hr1, hr2]
        simp

lemma nonws_lstrip_pres {u : List Char} (h : ∃ c ∈ u, isWS c = false) :
    ∃ c ∈ lstrip u, isWS c = false := by
  obtain ⟨d, t, he, hdw⟩ := exists_nonws_lstrip h
  exact ⟨d, by rw [he]; simp, hdw⟩

lemma mem_modLast {f : List Char → List Char} {l : List (List Char)}
    {x : List Char} (h : x ∈ modLast f l) : x ∈ l ∨ ∃ y ∈ l, x = f y := by
  induction l with
  | nil => cases h
  | cons a t ih =>
    cases t with
    | nil =>
      simp only [modLast, List.mem_singleton] at h
      exact Or.inr ⟨a, by simp, h⟩
    | cons b t' =>
      rw [show modLast f (a :: b :: t') = a :: modLast f (b :: t') from rfl]
        at h
      rcases List.mem_cons.mp h with rfl | h'
      · exact Or.inl (by simp)
      · rcases ih h' with h'' | ⟨y, hy, hxy⟩
        · exact Or.inl (by simp [h''])
        · exact Or.inr ⟨y, by simp [hy], hxy⟩

lemma stripJoin {ls : List (List Char)} (hne : ls ≠ [])
    (hnw : ∀ l ∈ ls, ∃ c ∈ l, isWS c = false)
    (hnl : ∀ l ∈ ls, '\n' ∉ l) :
    splitlinesNL (pyStrip (joinNL ls))
      = modLast rstrip (modHead lstrip ls) := by
  cases ls with
  | nil => exact absurd rfl hne
  | cons a t =>
    have h1 : lstrip (joinNL (a :: t)) = joinNL (lstrip a :: t) := by
      cases t with
      | nil => rfl
      | cons b t' =>
        rw [joinNL_cons (by simp), lstrip_append_ex (hnw a (by simp)),
          ← joinNL_cons (by simp)]
    have hmh : ∀ l ∈ (lstrip a :: t), ∃ c ∈ l, isWS c = false := by
      intro l hl
      rcases List.mem_cons.mp hl with rfl | hlt
      · exact nonws_lstrip_pres (hnw a (by simp))
      · exact hnw l (by simp [hlt])
    have h2 := @rstrip_joinNL (lstrip a :: t) (by simp) hmh
    have h3 : pyStrip (joinNL (a :: t))
        = joinNL (modLast rstrip (lstrip a :: t)) := by
      rw [pyStrip, h1, h2.1]
    have h4 : pyStrip (joinNL (a :: t)) ≠ [] := by
      rw [pyStrip, h1]
      exact h2.2
    have hXne : joinNL (modLast rstrip (lstrip a :: t)) ≠ [] := by
      rw [← h3]
      exact h4
    have hnl2 : ∀ l ∈ modLast rstrip (lstrip a :: t), '\n' ∉ l := by
      intro l hl hmem
      rcases mem_modLast hl with hl' | ⟨y, hy, rfl⟩
      · rcases List.mem_cons.mp hl' with rfl | hlt
        · exact hnl a (by simp) (mem_of_mem_lstrip hmem)
        · exact hnl l (by simp [hlt]) hmem
      · rcases List.mem_cons.mp hy with rfl | hyt
        · exact hnl a (by simp) (mem_of_mem_lstrip (mem_of_mem_rstrip hmem))
        · exact hnl y (by simp [hyt]) (mem_of_mem_rstrip hmem)
    have hXB : (joinNL (modLast rstrip (lstrip a :: t))).isEmpty = false := by
      cases hX : joinNL (modLast rstrip (lstrip a :: t)) with
      | nil => exact absurd hX hXne
      | cons c r => rfl
    rw [h3]
    unfold splitlinesNL
    rw [hXB]
    simp only [Bool.false_eq_true, if_false]
    rw [splitNL_joinNL (modLast_ne_nil (by simp)) hnl2]
    rfl

lemma replicate_space_ws {m : Nat} :
    ∀ c ∈ List.replicate m ' ', isWS c = true := by
  intro c hc
  rw [List.eq_of_mem_replicate hc]
  rfl

lemma natDigits_cons (k : Nat) : ∃ d rest, natDigits k = d :: rest := by
  cases hd : natDigits k with
  | nil => exact absurd hd (natDigits_ne_nil k)
  | cons d rest => exact ⟨d, rest, rfl⟩

lemma lstrip_of_all_nonws {u : List Char} (h : ∀ c ∈ u, isWS c = false) :
    lstrip u = u := by
  cases u with
  | nil => rfl
  | cons c t => exact lstrip_cons_nonws (h c (by simp))

lemma rstrip_of_all_nonws {u : List Char} (h : ∀ c ∈ u, isWS c = false) :
    rstrip u = u := by
  rw [rstrip, lstrip_of_all_nonws fun c hc => h c (List.mem_reverse.mp hc),
    List.reverse_reverse]

lemma natDigits_ex_nonws (k : Nat) : ∃ c ∈ natDigits k, isWS c = false := by
  obtain ⟨d, rest, hd⟩ := natDigits_cons k
  exact ⟨d, by rw [hd]; simp, natDigits_nonws k d (by rw [hd]; simp)⟩

lemma tokNo_rstrip_numtok {p r : List Char} {k : Nat}
    (hp : ∀ c ∈ p, isWS c = true)
    (hr : r = [] ∨ ∃ c r', r = c :: r' ∧ isWS c = true) :
    tokNo (rstrip (p ++ natDigits k ++ r)) = some k := by
  by_cases hnw : ∃ c ∈ r, isWS c = false
  · rw [rstrip_append_ex hnw]
    obtain ⟨c, r', hrc, hcw⟩ : ∃ c r', r = c :: r' ∧ isWS c = true := by
      rcases hr with rfl | h'
      · obtain ⟨c, hc, _⟩ := hnw
        cases hc
      · exact h'
    have hrne : rstrip r ≠ [] := rstrip_ne_nil hnw
    rw [hrc] at hrne ⊢
    obtain ⟨t', ht'⟩ := rstrip_cons_head hrne
    rw [ht']
    exact tokNo_numtok hp (Or.inr ⟨c, t', rfl, hcw⟩)
  · have hall : ∀ c ∈ r, isWS c = true := by
      intro c hc
      cases hcw : isWS c with
      | true => rfl
      | false => exact absurd ⟨c, hc, hcw⟩ hnw
    rw [rstrip_append_ws hall, rstrip_append_ex (natDigits_ex_nonws k),
      rstrip_of_all_nonws (natDigits_nonws k)]
    have h0 := tokNo_numtok (r := []) (k := k) hp (Or.inl rfl)
    simpa using h0

lemma lstrip_nlLine (k : Nat) (t : List Char) :
    lstrip (nlLine k t) = natDigits k ++ '\t' :: t := by
  obtain ⟨d, rest, hd⟩ := natDigits_cons k
  rw [nlLine, List.append_assoc, lstrip_append_ws replicate_space_ws, hd,
    List.cons_append, lstrip_cons_nonws (natDigits_nonws k d (by rw [hd]; simp)),
    ← List.cons_append]

lemma tokNo_nlLine (k : Nat) (t : List Char) : tokNo (nlLine k t) = some k :=
  tokNo_numtok replicate_space_ws (Or.inr ⟨'\t', t, rfl, rfl⟩)

lemma tokNo_lstrip_nlLine (k : Nat) (t : List Char) :
    tokNo (lstrip (nlLine k t)) = some k := by
  rw [lstrip_nlLine]
  have h0 := tokNo_numtok (p := []) (r := '\t' :: t) (k := k) (by simp)
    (Or.inr ⟨'\t', t, rfl, rfl⟩)
  simpa using h0

lemma tokNo_rstrip_nlLine (k : Nat) (t : List Char) :
    tokNo (rstrip (nlLine k t)) = some k :=
  tokNo_rstrip_numtok replicate_space_ws (Or.inr ⟨'\t', t, rfl, rfl⟩)

lemma tokNo_rstrip_lstrip_nlLine (k : Nat) (t : List Char) :
    tokNo (rstrip (lstrip (nlLine k t))) = some k := by
  rw [lstrip_nlLine]
  have h0 := tokNo_rstrip_numtok (p := []) (r := '\t' :: t) (k := k) (by simp)
    (Or.inr ⟨'\t', t, rfl, rfl⟩)
  simpa using h0

lemma nlFrom_length (k : Nat) (f : List (List Char)) :
    (nlFrom k f).length = f.length := by
  induction f generalizing k with
  | nil => rfl
  | cons t rest ih => simp [nlFrom, ih]

lemma nlFrom_drop (k N : Nat) (f : List (List Char)) :
    (nlFrom k f).drop N = nlFrom (k + N) (f.drop N) := by
  induction f generalizing k N with
  | nil => simp [nlFrom]
  | cons t rest ih =>
    cases N with
    | zero => simp [nlFrom]
    | succ n =>
      rw [nlFrom, List.drop_succ_cons, List.drop_succ_cons, ih]
      have he : k + 1 + n = k + (n + 1) := by omega
      rw [he]

lemma mem_nlFrom {k : Nat} {f : List (List Char)} {l : List Char}
    (h : l ∈ nlFrom k f) : ∃ n t, t ∈ f ∧ l = nlLine n t := by
  induction f generalizing k with
  | nil => cases h
  | cons x rest ih =>
    rw [nlFrom] at h
    rcases List.mem_cons.mp h with rfl | h'
    · exact ⟨k, x, by simp, rfl⟩
    · obtain ⟨n, t, ht, he⟩ := ih h'
      exact ⟨n, t, by simp [ht], he⟩

lemma nlLine_has_nonws (n : Nat) (t : List Char) :
    ∃ c ∈ nlLine n t, isWS c = false := by
  obtain ⟨d, rest, hd⟩ := natDigits_cons n
  refine ⟨d, ?_, natDigits_nonws n d (by rw [hd]; simp)⟩
  rw [nlLine]
  simp [hd]

lemma nlLine_no_nl {n : Nat} {t : List Char} (h : '\n' ∉ t) :
    '\n' ∉ nlLine n t := by
  intro hm
  rw [nlLine] at hm
  simp only [List.mem_append, List.mem_cons, List.mem_replicate] at hm
  rcases hm with (⟨_, hsp⟩ | hdig) | heq | hmem
  · cases hsp
  · exact (digit_not_break (natDigits_digits n '\n' hdig)).1 rfl
  · cases heq
  · exact h hmem

lemma plainFile_no_nl {file : List (List Char)}
    (hpf : plainFile file = true) : ∀ l ∈ file, '\n' ∉ l := by
  intro l hl hm
  have h1 : plainLine l = true := List.all_eq_true.mp hpf l hl
  have h2 := List.all_eq_true.mp h1 '\n' hm
  simp at h2

lemma drop_ne_nil_of_lt {file : List (List Char)} {N : Nat}
    (hlt : N < file.length) : file.drop N ≠ [] := by
  intro hd
  have hlen := List.length_drop N file
  rw [hd] at hlen
  simp at hlen
  omega

lemma diff_mods {file : List (List Char)} {N : Nat}
    (hpf : plainFile file = true) (hlt : N < file.length) :
    diff file N
      = modLast rstrip (modHead lstrip (nlFrom (N + 1) (file.drop N))) := by
  have hplain := plainFile_no_nl hpf
  have hdropne : file.drop N ≠ [] := drop_ne_nil_of_lt hlt
  have hnlls_ne : nlFrom (N + 1) (file.drop N) ≠ [] := by
    intro hd
    have hlen := nlFrom_length (N + 1) (file.drop N)
    rw [hd] at hlen
    simp at hlen
    omega
  have hforall_nw : ∀ l ∈ nlFrom (N + 1) (file.drop N),
      ∃ c ∈ l, isWS c = false := by
    intro l hl
    obtain ⟨n, t, _, rfl⟩ := mem_nlFrom hl
    exact nlLine_has_nonws n t
  have hforall_nl : ∀ l ∈ nlFrom (N + 1) (file.drop N), '\n' ∉ l := by
    intro l hl
    obtain ⟨n, t, ht, rfl⟩ := mem_nlFrom hl
    exact nlLine_no_nl (hplain t (List.drop_subset _ _ ht))
  unfold diff runTailCmd tailPlus
  have hN : N + 1 - 1 = N := by omega
  rw [hN, show nlFile file = nlFrom 1 file from rfl, nlFrom_drop]
  have h1N : 1 + N = N + 1 := by omega
  rw [h1N]
  exact stripJoin hnlls_ne hforall_nw hforall_nl

lemma diff_nil {file : List (List Char)} {N : Nat}
    (h : file.length ≤ N) : diff file N = [] := by
  unfold diff runTailCmd tailPlus
  have hd : (nlFile file).drop (N + 1 - 1) = [] := by
    apply List.drop_eq_nil_of_le
    rw [show nlFile file = nlFrom 1 file from rfl, nlFrom_length]
    omega
  rw [hd]
  rfl

lemma mapTok_modLast_nlFrom :
    ∀ (f : List (List Char)) (k : Nat), f ≠ [] →
    (modLast rstrip (nlFrom k f)).map tokNo
      = (rangeFrom k f.length).map some
  | [], _, h => absurd rfl h
  | [t], k, _ => by
    simp [nlFrom, modLast, rangeFrom, tokNo_rstrip_nlLine k t]
  | t :: t' :: rest, k, _ => by
    have ih := mapTok_modLast_nlFrom (t' :: rest) (k + 1) (by simp)
    have hcons : modLast rstrip (nlFrom k (t :: t' :: rest))
        = nlLine k t :: modLast rstrip (nlFrom (k + 1) (t' :: rest)) := rfl
    rw [hcons, List.map_cons, ih, tokNo_nlLine k t]
    rfl

lemma mapTok_diff_core :
    ∀ (d : List (List Char)) (k : Nat), d ≠ [] →
    (modLast rstrip (modHead lstrip (nlFrom k d))).map tokNo
      = (rangeFrom k d.length).map some
  | [], _, h => absurd rfl h
  | [t], k, _ => by
    simp [nlFrom, modHead, modLast, rangeFrom,
      tokNo_rstrip_lstrip_nlLine k t]
  | t :: t' :: rest, k, _ => by
    have ih := mapTok_modLast_nlFrom (t' :: rest) (k + 1) (by simp)
    have hcons : modLast rstrip (modHead lstrip (nlFrom k (t :: t' :: rest)))
        = lstrip (nlLine k t)
          :: modLast rstrip (nlFrom (k + 1) (t' :: rest)) := rfl
    rw [hcons, List.map_cons, ih, tokNo_lstrip_nlLine k t]
    rfl

lemma mapTok_diff {file : List (List Char)} {N : Nat}
    (hpf : plainFile file = true) (hlt : N < file.length) :
    (diff file N).map tokNo
      = (rangeFrom (N + 1) (file.length - N)).map some := by
  rw [diff_mods hpf hlt]
  have h := mapTok_diff_core (file.drop N) (N + 1) (drop_ne_nil_of_lt hlt)
  rwa [List.length_drop] at h

lemma getLast?_map {α β : Type} (f : α → β) :
    ∀ l : List α, (l.map f).getLast? = l.getLast?.map f
  | [] => rfl
  | [a] => rfl
  | a :: b :: t => by
    rw [List.map_cons, List.map_cons, List.getLast?_cons_cons,
      ← List.map_cons, getLast?_map f (b :: t), List.getLast?_cons_cons]

lemma rangeFrom_getLast? :
    ∀ (s n : Nat), 0 < n → (rangeFrom s n).getLast? = some (s + n - 1)
  | _, 0, h => absurd h (by omega)
  | s, 1, _ => by
    show some s = some (s + 1 - 1)
    have he : s + 1 - 1 = s := by omega
    rw [he]
  | s, n + 2, _ => by
    have ih := rangeFrom_getLast? (s + 1) (n + 1) (by omega)
    have h1 : rangeFrom s (n + 2) = s :: rangeFrom (s + 1) (n + 1) := rfl
    have h2 : rangeFrom (s + 1) (n + 1) = (s + 1) :: rangeFrom (s + 2) n :=
      rfl
    rw [h1, h2, List.getLast?_cons_cons, ← h2, ih]
    have he : s + 1 + (n + 1) - 1 = s + (n + 2) - 1 := by omega
    rw [he]

lemma nextLineNo_diff {file : List (List Char)} {N : Nat}
    (hpf : plainFile file = true) :
    nextLineNo (diff file N)
      = some (if file.length ≤ N then 1 else file.length) := by
  by_cases hle : file.length ≤ N
  · rw [diff_nil hle, if_pos hle]
    rfl
  · have hlt : N < file.length := by omega
    rw [if_neg hle]
    have hgl : (diff file N).getLast?.map tokNo = some (some file.length) := by
      rw [← getLast?_map, mapTok_diff hpf hlt, getLast?_map,
        rangeFrom_getLast? (N + 1) (file.length - N) (by omega),
        Option.map_some']
      have he : N + 1 + (file.length - N) - 1 = file.length := by omega
      rw [he]
    obtain ⟨l, hl, htok⟩ := Option.map_eq_some'.mp hgl
    rw [tokNo] at htok
    obtain ⟨tok, hft, hit⟩ := Option.bind_eq_some.mp htok
    simp [nextLineNo, hl, hft, hit]

lemma watchCycle_eq {file : List (List Char)} {N : Nat}
    (hpf : plainFile file = true) :
    watchCycle file N
      = some (diff file N, if file.length ≤ N then 1 else file.length) := by
  simp [watchCycle, nextLineNo_diff hpf]

lemma diff_ne_nil {file : List (List Char)} {N : Nat}
    (hpf : plainFile file = true) (hlt : N < file.length) :
    diff file N ≠ [] := by
  intro hd
  have hmap := mapTok_diff hpf hlt
  rw [hd] at hmap
  have he : file.length - N = (file.length - N - 1) + 1 := by omega
  rw [he] at hmap
  simp [rangeFrom] at hmap

/-- C2 (code bug): truncation detection (the empty-diff cycle) sets the
cursor to 1 instead of 0, so the next diff is `tail -n +2` and line 1
of the post-truncation file is never re-examined: with the watched file
reduced to the single matching line ERROR and a stale cursor of 5, the
detection cycle yields cursor 1, the following diff from cursor 1 is
empty, while a diff from the start of the file would contain the
line. -/
theorem c2_truncation_bug :
    watchCycle truncFile 5 = some ([], 1)
    ∧ diff truncFile 1 = []
    ∧ diff truncFile 0 = [toL "1\tERROR"]
    ∧ truncFile.length = 1 :=
  ⟨rfl, rfl, rfl, rfl⟩

/-- C3 counterexample: with the three-line file unchanged between two
cycles (no truncation, no growth), the first cycle advances the cursor
to 3 and the second cycle, whose diff is empty, resets it to 1 < 3, so
the cursor is not non-decreasing. -/
theorem c3_counterexample :
    (watchCycle fileA 0).map (fun q => q.2) = some 3
    ∧ watchCycle fileA 3 = some ([], 1)
    ∧ ¬ (3 ≤ 1) :=
  ⟨rfl, rfl, by omega⟩

/-- C3 (corrected): absent truncation, the cursor is non-decreasing
across Advancing transitions only in cycles whose diff is non-empty
(the file grew past the cursor): there the new cursor is the file
length, at least the old value.  A cycle whose diff is empty (file at
or below the cursor, for example unchanged since fully processed)
resets the cursor to 1, which can decrease it. -/
theorem c3_cursor_monotone (file : List (List Char)) (N : Nat)
    (hpf : plainFile file = true) (hlt : N < file.length) :
    watchCycle file N = some (diff file N, file.length)
    ∧ N ≤ file.length := by
  constructor
  · rw [watchCycle_eq hpf, if_neg (by omega)]
  · omega

/-- Witness for C3: one growing cycle on the concrete three-line file
advances the cursor from 0 to 3. -/
theorem c3_cursor_monotone_witness :
    plainFile fileA = true ∧ (0 : Nat) < fileA.length
    ∧ (watchCycle fileA 0 = some (diff fileA 0, fileA.length)
       ∧ 0 ≤ fileA.length) :=
  ⟨by decide, by decide, c3_cursor_monotone fileA 0 (by decide) (by decide)⟩

/-- C4 counterexample: a cycle with cursor 2 on the unchanged two-line
file has an empty diff, and the cursor is set to 1, not left unchanged
at 2. -/
theorem c4_counterexample :
    watchCycle fileB 2 = some ([], 1) ∧ (1 : Nat) ≠ 2 :=
  ⟨rfl, by omega⟩

/-- C4 (corrected): when the diff is non-empty the cursor is set to the
number of its last line, which is the file length and the maximum of
the ascending line numbers of the diff lines; when the diff is empty
the cursor is set to 1 (the truncation reset), not left unchanged. -/
theorem c4_cursor_update (file : List (List Char)) (N : Nat)
    (hpf : plainFile file = true) :
    watchCycle file N
      = some (diff file N, if file.length ≤ N then 1 else file.length)
    ∧ (N < file.length →
        (diff file N).map tokNo
          = (rangeFrom (N + 1) (file.length - N)).map some) :=
  ⟨watchCycle_eq hpf, fun hlt => mapTok_diff hpf hlt⟩

/-- Witness for C4 on the concrete two-line file with cursor 0. -/
theorem c4_cursor_update_witness :
    plainFile fileB = true
    ∧ (watchCycle fileB 0
        = some (diff fileB 0, if fileB.length ≤ 0 then 1 else fileB.length)
      ∧ (0 < fileB.length →
          (diff fileB 0).map tokNo
            = (rangeFrom (0 + 1) (fileB.length - 0)).map some)) :=
  ⟨by decide, c4_cursor_update fileB 0 (by decide)⟩

/-- C8 (confirmed): the diff of the watch loop is a pure function of
the current file content and the cursor (each call spawns a fresh
`nl | tail` pipeline with no cross-call buffering): with no intervening
writes two calls return the same, possibly empty, sequence of numbered
lines; moreover the result is empty exactly when the file has no lines
beyond the cursor. -/
theorem c8_diff_idempotent (file : List (List Char)) (N : Nat)
    (hpf : plainFile file = true) :
    diff file N = diff file N ∧ (diff file N = [] ↔ file.length ≤ N) := by
  refine ⟨rfl, ?_, ?_⟩
  · intro hd
    by_contra hle
    exact diff_ne_nil hpf (by omega) hd
  · exact diff_nil

/-- Witness for C8 on the concrete three-line file with cursor 3. -/
theorem c8_diff_idempotent_witness :
    plainFile fileA = true
    ∧ (diff fileA 3 = diff fileA 3 ∧ (diff fileA 3 = [] ↔ fileA.length ≤ 3)) :=
  ⟨by decide, c8_diff_idempotent fileA 3 (by decide)⟩
